import Mathlib

/-!
Verification of the sample/component ordering subsystem of `tcga-nmf`.

The repository's core (per its specification) is the family of sorting
algorithms in `src/nmf_vis/sort_utils.py` and its near-duplicate copy
`src/helpers/sort_utils.py`: the primary sort engine `bar_sort_order`, the
component ranker (`np.argsort(-H.sum(axis=0))`), the composite sort
strategies (`component`, `alphabetical`, `cancer_type`, `organ_system`,
`embryonic_layer`) and the dispatcher `get_sample_order`.

Modelling choices, shared by every definition below:

* Activity values (numpy floats in the source) are modelled over an arbitrary
  linearly ordered additive commutative group `α`; the algorithms only use
  comparison, negation and addition of values.  Concrete evaluations
  instantiate `α := ℤ`.
* Python strings (sample identifiers, category labels, group names) are
  modelled as `List Char` with lexicographic order, which is exactly Python's
  string comparison on code points.  Slicing `s[:4]` is `List.take 4`.
* `np.argmax(row)` is the index of the first occurrence of the maximum
  (numpy documents the first-occurrence convention).
* `np.argsort` is embedded twice.  `np_argsort_default` is the faithful
  model of the default sort kind the source calls: numpy's introsort
  (`aquicksort` in npysort/quicksort.c.src) — median-of-3 quicksort
  partitioning while a range holds more than `SMALL_QUICKSORT = 15` + 1
  elements, a single insertion-sort pass below that, with tie order among
  equal keys determined by the partition swaps (not stable beyond 16
  elements).  `np_argsort` is its stable idealization — indices ordered by
  key, ties broken by ascending index — which provably coincides with the
  default kind on every list of at most 16 keys (`np_argsort_default_eq_small`)
  and trivially wherever keys are tie-free.  Engine theorems whose truth is
  independent of tie order are stated over the idealization; the two
  statements that do hinge on tie order beyond the cutoff (the stability of
  the per-column ranking and the idempotence of the Component Ranker on
  tied sums) are settled against `np_argsort_default`, where they fail at
  seventeen tied keys.
* A 2-D numpy array is a column count together with a list of rows
  (the column count cannot be recovered from a rowless matrix).
* Exceptions are modelled by `Option`: `none` is a raised error (or, where a
  doc comment says so, Python `None`).  `np.argmax(mat, axis=1)` raises
  `ValueError` («attempt to get argmax of an empty sequence») whenever the
  reduced axis has length 0, i.e. whenever the matrix has zero columns.
-/

/-- A Python string: a sequence of characters, compared lexicographically
(Mathlib's `LinearOrder (List Char)` instance is exactly Python's string
order on code points). -/
abbrev PyStr := List Char

section NumpyModelDefs

variable {κ : Type} [LinearOrder κ]

/-- The comparator underlying the stable arg-sort: index `i` comes before
index `j` when its key is smaller, or the keys are equal and `i ≤ j`.
`d` is the (irrelevant: only in-range indices are compared) default for
out-of-range lookups. -/
def argRel (d : κ) (keys : List κ) (i j : ℕ) : Prop :=
  keys.getD i d < keys.getD j d ∨ (keys.getD i d = keys.getD j d ∧ i ≤ j)

instance (d : κ) (keys : List κ) : DecidableRel (argRel d keys) :=
  fun _ _ => inferInstanceAs (Decidable (_ ∨ _))

instance (d : κ) (keys : List κ) : IsTotal ℕ (argRel d keys) where
  total i j := by
    unfold argRel
    rcases lt_trichotomy (keys.getD i d) (keys.getD j d) with h | h | h
    · exact Or.inl (Or.inl h)
    · rcases Nat.le_total i j with hij | hij
      · exact Or.inl (Or.inr ⟨h, hij⟩)
      · exact Or.inr (Or.inr ⟨h.symm, hij⟩)
    · exact Or.inr (Or.inl h)

instance (d : κ) (keys : List κ) : IsTrans ℕ (argRel d keys) where
  trans i j k := by
    unfold argRel
    rintro (h₁ | ⟨h₁, hij⟩) (h₂ | ⟨h₂, hjk⟩)
    · exact Or.inl (h₁.trans h₂)
    · exact Or.inl (h₂ ▸ h₁)
    · exact Or.inl (h₁ ▸ h₂)
    · exact Or.inr ⟨h₁.trans h₂, hij.trans hjk⟩

instance (d : κ) (keys : List κ) : IsAntisymm ℕ (argRel d keys) where
  antisymm i j := by
    unfold argRel
    rintro (h₁ | ⟨h₁, hij⟩) (h₂ | ⟨h₂, hji⟩)
    · exact absurd h₂ (lt_asymm h₁)
    · exact absurd h₁ (h₂ ▸ lt_irrefl _)
    · exact absurd h₂ (h₁ ▸ lt_irrefl _)
    · exact Nat.le_antisymm hij hji

/-- The stable idealization of `np.argsort(keys)`: the permutation of
`0 .. keys.length - 1` that sorts `keys` ascending, ties broken by
ascending index.  This is exactly `np.argsort(keys, kind="stable")`; for
the default kind the source calls it is provably exact on lists of at most
16 keys (`np_argsort_default_eq_small` below: the default introsort is then
one stable insertion pass) and agrees wherever keys are tie-free (a sorted
permutation of distinct keys is unique).  The faithful model of the default
kind itself is `np_argsort_default` below; theorems whose truth depends on
tie order beyond the 16-element cutoff are stated against that one. -/
def np_argsort (d : κ) (keys : List κ) : List ℕ :=
  List.insertionSort (argRel d keys) (List.range keys.length)

end NumpyModelDefs

section NumpyDefaultSortDefs

variable {κ : Type} [LinearOrder κ]

/-- Auxiliary for `npyGetMsb`: halve `m` until it drops below 2, counting
the steps.  The fuel (instantiated with `m` itself, which halving never
outruns) only makes the recursion structural. -/
def msbAux : ℕ → ℕ → ℕ
  | 0, _ => 0
  | fuel + 1, m => if 2 ≤ m then msbAux fuel (m / 2) + 1 else 0

/-- numpy's `npy_get_msb`: the position of the most significant set bit,
i.e. the floor of the base-2 logarithm (and `0` for `0`). -/
def npyGetMsb (n : ℕ) : ℕ := msbAux n n

/-- `INTP_SWAP` on the index array: exchange the entries at positions `i`
and `j`. -/
def idxSwap (l : List ℕ) (i j : ℕ) : List ℕ :=
  let a := l.getD i 0
  let b := l.getD j 0
  (l.set i b).set j a

/-- One step of numpy's small-range insertion sort (quicksort.c.src,
`aquicksort` tail): index `i` is inserted into the already sorted prefix
`acc`; the C loop shifts entries from the right while their key is strictly
greater than `i`'s, which on a sorted prefix places `i` exactly before the
first entry with a strictly greater key — the formulation used here. -/
def npInsertIdx (keys : List κ) (d : κ) (i : ℕ) : List ℕ → List ℕ
  | [] => [i]
  | b :: acc =>
      if keys.getD b d ≤ keys.getD i d then b :: npInsertIdx keys d i acc
      else i :: b :: acc

/-- numpy's insertion sort over an index segment: fold the segment left to
right, inserting each index into the sorted prefix.  This is the whole of
the default `np.argsort` for segments of at most 16 elements. -/
def npInsertionSortIdx (keys : List κ) (d : κ) (l : List ℕ) : List ℕ :=
  l.foldl (fun acc i => npInsertIdx keys d i acc) []

/-- The partition scan `do ++pi; while (LT(v[tosort[pi]], vp))`: starting
at position `k`, advance while the key at the current position is strictly
below the pivot.  The fuel is ample (callers pass the segment length plus
one; the parked pivot stops the scan in the real algorithm). -/
def scanUp (keys : List κ) (d : κ) (vp : κ) (seg : List ℕ) : ℕ → ℕ → ℕ
  | 0, k => k
  | fuel + 1, k =>
      if keys.getD (seg.getD k 0) d < vp then scanUp keys d vp seg fuel (k + 1) else k

/-- The partition scan `do --pj; while (LT(vp, v[tosort[pj]]))`. -/
def scanDown (keys : List κ) (d : κ) (vp : κ) (seg : List ℕ) : ℕ → ℕ → ℕ
  | 0, k => k
  | fuel + 1, k =>
      if vp < keys.getD (seg.getD k 0) d then scanDown keys d vp seg fuel (k - 1) else k

/-- The Hoare scan loop of `aquicksort`: move `pi` up and `pj` down, swap
while they have not crossed, and return the array together with the final
`pi`.  Mirrors
`for (;;) { do ++pi ...; do --pj ...; if (pi >= pj) break; SWAP; }`. -/
def hoareLoop (keys : List κ) (d : κ) (vp : κ) : ℕ → List ℕ → ℕ → ℕ → List ℕ × ℕ
  | 0, seg, pi, _ => (seg, pi)
  | fuel + 1, seg, pi, pj =>
      let piN := scanUp keys d vp seg (seg.length + 1) (pi + 1)
      let pjN := scanDown keys d vp seg (seg.length + 1) (pj - 1)
      if pjN ≤ piN then (seg, piN)
      else hoareLoop keys d vp fuel (idxSwap seg piN pjN) piN pjN

/-- One `aquicksort` partition round on an index segment (positions are
relative to the segment, `pl = 0`, `pr = length - 1`): median-of-3 pivot
selection with its three conditional swaps, pivot parked at `pr - 1`, the
Hoare scan, and the final swap placing the pivot at the split position.
Returns the permuted segment and the split position `pi`. -/
def npyPartition (keys : List κ) (d : κ) (seg : List ℕ) : List ℕ × ℕ :=
  let pr := seg.length - 1
  let pm := pr / 2
  let s₁ := if keys.getD (seg.getD pm 0) d < keys.getD (seg.getD 0 0) d
    then idxSwap seg pm 0 else seg
  let s₂ := if keys.getD (s₁.getD pr 0) d < keys.getD (s₁.getD pm 0) d
    then idxSwap s₁ pr pm else s₁
  let s₃ := if keys.getD (s₂.getD pm 0) d < keys.getD (s₂.getD 0 0) d
    then idxSwap s₂ pm 0 else s₂
  let vp := keys.getD (s₃.getD pm 0) d
  let s₄ := idxSwap s₃ pm (pr - 1)
  let r := hoareLoop keys d vp (seg.length + 1) s₄ 0 (pr - 1)
  (idxSwap r.1 r.2 (pr - 1), r.2)

/-- The recursion of `aquicksort`: a segment of at most
`SMALL_QUICKSORT + 1 = 16` elements gets the single insertion pass
(`(pr - pl) > SMALL_QUICKSORT` fails); otherwise one partition round and
recursion on the two sides of the split, the pivot staying in place.  The
`fuel` makes the recursion structural; the initial call passes the segment
length, which a partition never increases, so the `fuel = 0` branch is
unreachable.  When the depth budget is exhausted numpy heapsorts the
segment; no theorem in this file exercises that branch (the concrete
inputs below perform at most one partition against a budget of
`2 * log₂ n ≥ 8`, and every other statement assumes at most 16 elements),
and it is modelled here by the same insertion pass — a correct sort whose
tie order nothing below depends on.  (The C implementation runs the
recursion as a loop over an explicit stack, processing the smaller side
first; the sides being disjoint, the final array does not depend on that
order, and the depth budget is modelled per branch.) -/
def aquicksortRec (keys : List κ) (d : κ) (fuel depth : ℕ) (seg : List ℕ) : List ℕ :=
  if seg.length ≤ 16 then npInsertionSortIdx keys d seg
  else
    match fuel, depth with
    | 0, _ => npInsertionSortIdx keys d seg
    | _ + 1, 0 => npInsertionSortIdx keys d seg
    | fuel + 1, depth + 1 =>
        let r := npyPartition keys d seg
        aquicksortRec keys d fuel depth (r.1.take r.2) ++
          r.1.getD r.2 0 :: aquicksortRec keys d fuel depth (r.1.drop (r.2 + 1))

/-- The faithful model of `np.argsort(keys)` with the default sort kind —
numpy's `aquicksort` introsort: partition while a range exceeds 16
elements, insertion sort below, depth budget `2 * npy_get_msb(n)`.
Deterministic but not stable: beyond 16 elements the partition swaps
reorder tied keys. -/
def np_argsort_default (d : κ) (keys : List κ) : List ℕ :=
  aquicksortRec keys d keys.length (2 * npyGetMsb keys.length) (List.range keys.length)

end NumpyDefaultSortDefs

section ArgMaxDef

variable {α : Type} [LinearOrderedAddCommGroup α]

/-- Model of per-row `np.argmax`: the index of the first occurrence of the
maximum value (numpy returns the first occurrence on ties). -/
def np_argmax : List α → ℕ
  | [] => 0
  | [_] => 0
  | x :: y :: rest =>
      let k := np_argmax (y :: rest)
      if (y :: rest).getD k 0 ≤ x then 0 else k + 1

/-- The spec's characterisation of a row's dominant component: `c` indexes a
maximal entry of the row, and every entry strictly before position `c` is
strictly smaller (arg-max with ties broken by the lowest column index). -/
def IsFirstArgmax (l : List α) (c : ℕ) : Prop :=
  c < l.length ∧ (∀ j, j < l.length → l.getD j 0 ≤ l.getD c 0) ∧
    (∀ j, j < c → l.getD j 0 < l.getD c 0)

instance (l : List α) (c : ℕ) : Decidable (IsFirstArgmax l c) :=
  inferInstanceAs (Decidable (_ ∧ _))

end ArgMaxDef

section MatrixModel

/-- A 2-D numpy array of activity values: a column count plus a list of
rows.  (The column count is carried explicitly because numpy shapes exist
independently of the data; a rowless `(0, k)` matrix still knows `k`.) -/
structure NpMat (α : Type) where
  ncols : ℕ
  rows : List (List α)

variable {α : Type} [LinearOrderedAddCommGroup α]

/-- Rectangularity: every row has exactly `ncols` entries. -/
def NpMat.WF (m : NpMat α) : Prop := ∀ r ∈ m.rows, r.length = m.ncols

instance (m : NpMat α) : Decidable m.WF :=
  inferInstanceAs (Decidable (∀ r ∈ m.rows, r.length = m.ncols))

/-- Row `i` of the matrix (`[]` when out of range; rectangular inputs never
reach the default). -/
def NpMat.row (m : NpMat α) (i : ℕ) : List α := m.rows.getD i []

/-- Entry at row `i`, column `c` (`0` when out of range). -/
def rowVal (m : NpMat α) (i c : ℕ) : α := (m.row i).getD c 0

/-- Column `c` of the matrix, `mat[:, c]`. -/
def matCol (m : NpMat α) (c : ℕ) : List α := m.rows.map (fun r => r.getD c 0)

/-- The winning component of row `i`: `np.argmax` over that row.  Mirrors
`winners = np.argmax(mat, axis=1)` entrywise. -/
def winner (m : NpMat α) (i : ℕ) : ℕ := np_argmax (m.row i)

/-- `winners = np.argmax(mat, axis=1)` (sort_utils.py): the list of per-row
first arg-max indices. -/
def winnersList (m : NpMat α) : List ℕ := m.rows.map np_argmax

/-- `idx = np.argsort(-mat[:, comp])` (sort_utils.py): the descending
ranking of all rows by their value in column `comp`, under the stable
idealization of `np.argsort` (exact below the 16-row cutoff and on
tie-free columns). -/
def colRanking (m : NpMat α) (comp : ℕ) : List ℕ :=
  np_argsort 0 ((matCol m comp).map Neg.neg)

/-- `idx = np.argsort(-mat[:, comp])` as the program actually executes it:
the default-kind introsort ranking.  Differs from `colRanking` only in the
order of tied rows beyond 16 elements. -/
def colRankingDefault (m : NpMat α) (comp : ℕ) : List ℕ :=
  np_argsort_default 0 ((matCol m comp).map Neg.neg)

/-- `idx[winners[idx] == comp]` (sort_utils.py): the rows of the column
ranking whose winner is `comp`, in ranking order. -/
def barGroup (m : NpMat α) (comp : ℕ) : List ℕ :=
  (colRanking m comp).filter (fun i => (winnersList m).getD i 0 == comp)

/-- `H.sum(axis=0)`: the list of column sums. -/
def colSums (m : NpMat α) : List α := (List.range m.ncols).map (fun c => (matCol m c).sum)

/-- `comp_order = np.argsort(-H.sum(axis=0))` — the Component Ranker
(`rank_components` of the spec), appearing verbatim in every strategy of
both module copies; stable idealization (exact below 16 columns and on
tie-free sums). -/
def comp_order (m : NpMat α) : List ℕ := np_argsort 0 ((colSums m).map Neg.neg)

/-- `np.argsort(-H.sum(axis=0))` as the program actually executes it: the
Component Ranker under the default sort kind.  Differs from `comp_order`
only in the order of tied column sums beyond 16 columns. -/
def comp_orderDefault (m : NpMat α) : List ℕ :=
  np_argsort_default 0 ((colSums m).map Neg.neg)

/-- `H[:, perm]`: reorder (or select) columns by a list of column indices. -/
def reorderCols (m : NpMat α) (perm : List ℕ) : NpMat α :=
  ⟨perm.length, m.rows.map (fun r => perm.map (fun c => r.getD c 0))⟩

/-- `H_ord = H[:, np.argsort(-H.sum(axis=0))]`: the component-reordered
matrix every strategy starts from. -/
def compReordered (m : NpMat α) : NpMat α := reorderCols m (comp_order m)

/-- `H[idxs, :]`: select rows by a list of row indices. -/
def rowSubset (m : NpMat α) (idxs : List ℕ) : NpMat α :=
  ⟨m.ncols, idxs.map (fun i => m.rows.getD i [])⟩

/-- `np.where(np.array(labels) == lab)[0]`: positions of the rows carrying
label `lab`, ascending. -/
def subIndices (labels : List PyStr) (lab : PyStr) : List ℕ :=
  (List.range labels.length).filter (fun i => labels.getD i [] == lab)

/-- `sorted(list(set(labels)))`: the distinct labels in ascending
lexicographic order. -/
def sortedUnique (labels : List PyStr) : List PyStr :=
  List.insertionSort (· ≤ ·) labels.dedup

/-- An `organ_system_groupings` (or embryonic-layer) table entry list:
each entry is a `group_name` together with its `cancer_codes`.  The JSON
file's dict construction `code_to_organ[code] = group_name` lets a later
entry overwrite an earlier one, so lookups search the reversed list. -/
abbrev GroupTable := List (PyStr × List PyStr)

/-- Dict lookup `code_to_organ.get(code)` after
`for group in data: for code in group["cancer_codes"]: d[code] = name` —
the last write wins, hence the search over the reversed table. -/
def lookupCode (groups : GroupTable) (code : PyStr) : Option PyStr :=
  (groups.reverse.find? (fun g => g.2.contains code)).map (fun g => g.1)

/-- The Python string constant `"Unknown"`. -/
def unknownLabel : PyStr := ['U', 'n', 'k', 'n', 'o', 'w', 'n']

end MatrixModel

/-! ### The canonical module `src/nmf_vis/sort_utils.py` -/

namespace NmfVis

variable {α : Type} [LinearOrderedAddCommGroup α]

/-- `bar_sort_order` (nmf_vis/sort_utils.py lines 5–14): per column (in the
matrix's current order) rank all rows by descending activity, keep the rows
whose winner is that column, and concatenate.  `none` models the
`ValueError` that `np.argmax(mat, axis=1)` raises when the matrix has zero
columns.  Built on the stable ranking idealization `colRanking` (see the
module header): every engine theorem proved below states a property that
does not depend on the order of tied rows inside the ranking, so it holds
under the default sort kind as well; the one property that does depend on
that order is settled against the faithful default-kind model (C5). -/
def bar_sort_order (m : NpMat α) : Option (List ℕ) :=
  if m.ncols = 0 then none
  else some (((List.range m.ncols).map (barGroup m)).flatten)

/-- `get_alphabetical_sort` (lines 17–19): `np.argsort(sample_ids)`. -/
def get_alphabetical_sort (sample_ids : List PyStr) : List ℕ :=
  np_argsort [] sample_ids

/-- The partition-then-rank body shared—line for line—by
`get_cancer_type_sort` (lines 22–48) and the grouping branch of
`get_organ_system_sort` (lines 78–95): pre-reorder the columns by the
Component Ranker, walk the distinct labels in ascending order, run
`bar_sort_order` on each label's row subset, and map the local order back
through `sub_indices`.  Empty subsets are skipped (`continue`). -/
def groupedBarSort (H : NpMat α) (labels : List PyStr) : Option (List ℕ) :=
  ((sortedUnique labels).mapM (fun lab =>
      let sub := subIndices labels lab
      if sub = [] then some []
      else (bar_sort_order (rowSubset (compReordered H) sub)).map
        (fun so => so.map (fun k => sub.getD k 0)))).map List.flatten

/-- `get_cancer_type_sort` (lines 22–48). -/
def get_cancer_type_sort (H : NpMat α) (cancer_types : List PyStr) : Option (List ℕ) :=
  groupedBarSort H cancer_types

/-- `get_organ_system_sort` (lines 51–101).  The whole body sits in a
`try`; the table argument is `none` when loading the config or grouping
JSON raises (missing or malformed file), which lands in the `except`
branch: `bar_sort_order` on the component-reordered matrix.  A failure
inside the grouping branch itself (zero-column matrix) is likewise caught
and sent to the same fallback. -/
def get_organ_system_sort (H : NpMat α) (sample_ids : List PyStr)
    (tbl : Option GroupTable) : Option (List ℕ) :=
  match tbl with
  | none => bar_sort_order (compReordered H)
  | some groups =>
      let cancer_codes := sample_ids.map (List.take 4)
      let organ_systems :=
        cancer_codes.map (fun code => (lookupCode groups code).getD unknownLabel)
      match groupedBarSort H organ_systems with
      | none => bar_sort_order (compReordered H)
      | some r => some r

/-- `get_embryonic_layer_sort` (lines 104–111): the body is a placeholder —
«Fall back to component sorting for now» — that ignores `cancer_types` and
the config path entirely and returns the plain component ordering. -/
def get_embryonic_layer_sort (H : NpMat α) (cancer_types : List PyStr)
    (tbl : Option GroupTable) : Option (List ℕ) :=
  bar_sort_order (compReordered H)

/-- Modelled from the spec: the `embryonic_layer` strategy as §4.3 of the
spec describes it — «Same scheme as `organ_system`, using the
embryonic-layer grouping table»: map each sample's cancer-type code through
the grouping table (default `"Unknown"`), partition by the resulting layer
label, rank each partition with the Primary Sort Engine on the
component-reordered matrix, concatenate in ascending label order.  This
logic is absent from the code: both module copies of
`get_embryonic_layer_sort` are placeholders. -/
def get_embryonic_layer_sort_spec (H : NpMat α) (cancer_types : List PyStr)
    (tbl : Option GroupTable) : Option (List ℕ) :=
  match tbl with
  | none => bar_sort_order (compReordered H)
  | some groups =>
      let layers :=
        cancer_types.map (fun code => (lookupCode groups code).getD unknownLabel)
      match groupedBarSort H layers with
      | none => bar_sort_order (compReordered H)
      | some r => some r

/-- `get_sample_order` (lines 114–145): the strategy dispatcher.  The
`organ_system` branch receives the loaded grouping table (or `none` when
its file is missing/malformed); an unrecognised name takes the final
`return bar_sort_order(H_ord)`. -/
def get_sample_order (sort_method : String) (H : NpMat α)
    (sample_ids cancer_types : List PyStr) (tbl : Option GroupTable) :
    Option (List ℕ) :=
  if sort_method = "component" then bar_sort_order (compReordered H)
  else if sort_method = "alphabetical" then some (get_alphabetical_sort sample_ids)
  else if sort_method = "cancer_type" then get_cancer_type_sort H cancer_types
  else if sort_method = "organ_system" then get_organ_system_sort H sample_ids tbl
  else if sort_method = "embryonic_layer" then get_embryonic_layer_sort H cancer_types tbl
  else bar_sort_order (compReordered H)

end NmfVis

/-! ### The legacy module `src/helpers/sort_utils.py` -/

namespace Helpers

variable {α : Type} [LinearOrderedAddCommGroup α]

/-- `bar_sort_order` (helpers/sort_utils.py lines 4–11): line-for-line the
same algorithm as the nmf_vis copy. -/
def bar_sort_order (m : NpMat α) : Option (List ℕ) :=
  if m.ncols = 0 then none
  else some (((List.range m.ncols).map (barGroup m)).flatten)

/-- `get_alphabetical_sort` (lines 14–16): `np.argsort(sample_ids)`. -/
def get_alphabetical_sort (sample_ids : List PyStr) : List ℕ :=
  np_argsort [] sample_ids

/-- `get_cancer_type_sort` (lines 19–36).  Its body reads
`np.zeros(len(sample_ids))`, but `sample_ids` is neither a parameter of the
function nor a module-level name in helpers/sort_utils.py, so every call
raises `NameError` before producing anything: the model is the constant
error. -/
def get_cancer_type_sort (H : NpMat α) (cancer_types : List PyStr) : Option (List ℕ) :=
  none

/-- The `except` branch of `get_organ_system_sort` (lines 87–90), taken
when opening or parsing the grouping file raises: it returns
`bar_sort_order(H)` on the matrix with its original column order — without
the `comp_order` reordering that this module's own `component` strategy
performs.  Only this branch is embedded; no theorem below exercises the
branch where the grouping file loads. -/
def get_organ_system_sort_fallback (H : NpMat α) : Option (List ℕ) :=
  bar_sort_order H

/-- `get_embryonic_layer_sort` (lines 93–97): the body is `pass`, so the
function returns Python `None` — no permutation at all (`none` here). -/
def get_embryonic_layer_sort (H : NpMat α) (cancer_types : List PyStr) :
    Option (List ℕ) :=
  none

/-- `get_sample_order` (lines 100–127), embedded for an environment in
which the organ-system grouping file is missing (the only environment the
theorems below exercise, so the `organ_system` branch takes the `except`
fallback).  Note the final default `return bar_sort_order(H)` — unlike the
`component` branch it skips the `comp_order` reordering. -/
def get_sample_order (sort_method : String) (H : NpMat α)
    (sample_ids cancer_types : List PyStr) : Option (List ℕ) :=
  if sort_method = "component" then bar_sort_order (compReordered H)
  else if sort_method = "alphabetical" then some (get_alphabetical_sort sample_ids)
  else if sort_method = "cancer_type" then get_cancer_type_sort H cancer_types
  else if sort_method = "organ_system" then get_organ_system_sort_fallback H
  else if sort_method = "embryonic_layer" then get_embryonic_layer_sort H cancer_types
  else bar_sort_order H

end Helpers

/-! ### Properties of the numpy primitives -/

section NumpyModelLemmas

variable {κ : Type} [LinearOrder κ]

theorem np_argsort_sorted (d : κ) (keys : List κ) :
    List.Sorted (argRel d keys) (np_argsort d keys) :=
  List.sorted_insertionSort _ _

theorem np_argsort_perm (d : κ) (keys : List κ) :
    (np_argsort d keys).Perm (List.range keys.length) :=
  List.perm_insertionSort _ _

theorem np_argsort_nodup (d : κ) (keys : List κ) : (np_argsort d keys).Nodup :=
  ((np_argsort_perm d keys).nodup_iff).mpr (List.nodup_range _)

theorem np_argsort_length (d : κ) (keys : List κ) :
    (np_argsort d keys).length = keys.length :=
  ((np_argsort_perm d keys).length_eq).trans (List.length_range _)

theorem np_argsort_mem {d : κ} {keys : List κ} {i : ℕ} :
    i ∈ np_argsort d keys ↔ i < keys.length := by
  rw [(np_argsort_perm d keys).mem_iff, List.mem_range]

end NumpyModelLemmas

section ArgMaxLemmas

variable {α : Type} [LinearOrderedAddCommGroup α]

theorem np_argmax_lt_length : ∀ (l : List α), l ≠ [] → np_argmax l < l.length
  | [], h => absurd rfl h
  | [_], _ => Nat.zero_lt_one
  | x :: y :: rest, _ => by
    rw [np_argmax]
    split
    · exact Nat.succ_pos _
    · exact Nat.succ_lt_succ (np_argmax_lt_length (y :: rest) (List.cons_ne_nil _ _))

theorem getD_le_getD_np_argmax :
    ∀ (l : List α) (j : ℕ), j < l.length → l.getD j 0 ≤ l.getD (np_argmax l) 0
  | [], _, hj => absurd hj (by simp)
  | [x], j, hj => by
    match j with
    | 0 => simp [np_argmax]
  | x :: y :: rest, j, hj => by
    rw [np_argmax]
    split
    case isTrue h =>
      match j with
      | 0 => simp
      | j + 1 =>
        have hj' : j < (y :: rest).length := by
          simpa [Nat.succ_lt_succ_iff] using hj
        calc (x :: y :: rest).getD (j + 1) 0 = (y :: rest).getD j 0 := by simp
          _ ≤ (y :: rest).getD (np_argmax (y :: rest)) 0 :=
              getD_le_getD_np_argmax (y :: rest) j hj'
          _ ≤ x := h
          _ = (x :: y :: rest).getD 0 0 := by simp
    case isFalse h =>
      match j with
      | 0 => simpa using le_of_lt (lt_of_not_le h)
      | j + 1 =>
        have hj' : j < (y :: rest).length := by
          simpa [Nat.succ_lt_succ_iff] using hj
        simpa using getD_le_getD_np_argmax (y :: rest) j hj'

theorem getD_lt_getD_of_lt_np_argmax :
    ∀ (l : List α) (j : ℕ), j < np_argmax l → l.getD j 0 < l.getD (np_argmax l) 0
  | [], j, hj => absurd hj (by simp [np_argmax])
  | [_], j, hj => absurd hj (by simp [np_argmax])
  | x :: y :: rest, j, hj => by
    rw [np_argmax] at hj ⊢
    split
    case isTrue h => exact absurd (hj.trans_eq (if_pos h)) (Nat.not_lt_zero j)
    case isFalse h =>
      have hj' : j < np_argmax (y :: rest) + 1 := hj.trans_eq (if_neg h)
      match j with
      | 0 => simpa using lt_of_not_le h
      | j + 1 =>
        simpa using getD_lt_getD_of_lt_np_argmax (y :: rest) j (Nat.lt_of_succ_lt_succ hj')

/-- `np.argmax` satisfies the spec's first-arg-max characterisation on any
nonempty row. -/
theorem isFirstArgmax_np_argmax (l : List α) (hl : l ≠ []) :
    IsFirstArgmax l (np_argmax l) :=
  ⟨np_argmax_lt_length l hl, fun j hj => getD_le_getD_np_argmax l j hj,
   fun j hj => getD_lt_getD_of_lt_np_argmax l j hj⟩

end ArgMaxLemmas

/-! ### Bridge lemmas between the list primitives and matrix accessors -/

section BridgeLemmas

variable {α : Type} [LinearOrderedAddCommGroup α]

theorem getD_map_neg (l : List α) (i : ℕ) :
    (l.map Neg.neg).getD i 0 = -(l.getD i 0) := by
  rcases Nat.lt_or_ge i l.length with h | h
  · rw [List.getD_eq_getElem _ _ (by simpa using h), List.getD_eq_getElem _ _ h,
      List.getElem_map]
  · rw [List.getD_eq_default _ _ (by simpa using h), List.getD_eq_default _ _ h, neg_zero]

theorem matCol_getD (m : NpMat α) (c i : ℕ) : (matCol m c).getD i 0 = rowVal m i c := by
  rcases Nat.lt_or_ge i m.rows.length with h | h
  · rw [matCol, rowVal, NpMat.row, List.getD_eq_getElem _ _ (by simpa using h),
      List.getElem_map, List.getD_eq_getElem _ _ h]
  · rw [matCol, rowVal, NpMat.row, List.getD_eq_default _ _ (by simpa using h),
      List.getD_eq_default _ _ h]
    simp

theorem winnersList_getD (m : NpMat α) (i : ℕ) :
    (winnersList m).getD i 0 = winner m i := by
  rcases Nat.lt_or_ge i m.rows.length with h | h
  · rw [winnersList, winner, NpMat.row, List.getD_eq_getElem _ _ (by simpa using h),
      List.getElem_map, List.getD_eq_getElem _ _ h]
  · rw [winnersList, winner, NpMat.row, List.getD_eq_default _ _ (by simpa using h),
      List.getD_eq_default _ _ h]
    rfl

theorem colRanking_length (m : NpMat α) (c : ℕ) :
    (colRanking m c).length = m.rows.length := by
  rw [colRanking, np_argsort_length]
  simp [matCol]

theorem colRanking_argRel_iff (m : NpMat α) (c i j : ℕ) :
    argRel 0 ((matCol m c).map Neg.neg) i j ↔
      (rowVal m j c < rowVal m i c ∨ (rowVal m i c = rowVal m j c ∧ i ≤ j)) := by
  unfold argRel
  rw [getD_map_neg, getD_map_neg, matCol_getD, matCol_getD, neg_lt_neg_iff, neg_inj]

/-- The per-column ranking is sorted: strictly larger values first, ties in
ascending original row index. -/
theorem colRanking_pairwise (m : NpMat α) (c : ℕ) :
    List.Pairwise
      (fun i j => rowVal m j c < rowVal m i c ∨ (rowVal m i c = rowVal m j c ∧ i ≤ j))
      (colRanking m c) :=
  (np_argsort_sorted 0 ((matCol m c).map Neg.neg)).imp
    (fun h => (colRanking_argRel_iff m c _ _).mp h)

/-- Rows kept by `idx[winners[idx] == comp]` have winner `comp` and are
genuine row indices. -/
theorem winner_of_mem_barGroup {m : NpMat α} {c i : ℕ} (h : i ∈ barGroup m c) :
    winner m i = c ∧ i < m.rows.length := by
  rw [barGroup, List.mem_filter] at h
  obtain ⟨hmem, hpred⟩ := h
  constructor
  · rw [← winnersList_getD m i]
    exact beq_iff_eq.mp hpred
  · rw [colRanking] at hmem
    have := np_argsort_mem.mp hmem
    simpa [matCol] using this

end BridgeLemmas

/-! ### Supporting theorems about the canonical module -/

section Supporting

variable {α : Type} [LinearOrderedAddCommGroup α]

/-- In nmf_vis/sort_utils.py the `except` fallback of `get_organ_system_sort`
(lines 97–101) is the very expression of the dispatcher's `component`
branch (lines 124–128), so a missing grouping table reproduces the
`component` strategy exactly. -/
theorem nmfvis_organ_missing_table_eq_component (H : NpMat α)
    (ids cts : List PyStr) (tbl : Option GroupTable) :
    NmfVis.get_organ_system_sort H ids none =
      NmfVis.get_sample_order "component" H ids cts tbl := rfl

/-- In nmf_vis/sort_utils.py the dispatcher's final default (lines 143–144)
is the very expression of its `component` branch, so an unrecognised
strategy name reproduces the `component` strategy exactly. -/
theorem nmfvis_unknown_method_eq_component (sort_method : String) (H : NpMat α)
    (ids cts : List PyStr) (tbl : Option GroupTable)
    (h₁ : sort_method ≠ "component") (h₂ : sort_method ≠ "alphabetical")
    (h₃ : sort_method ≠ "cancer_type") (h₄ : sort_method ≠ "organ_system")
    (h₅ : sort_method ≠ "embryonic_layer") :
    NmfVis.get_sample_order sort_method H ids cts tbl =
      NmfVis.get_sample_order "component" H ids cts tbl := by
  rw [NmfVis.get_sample_order, if_neg h₁, if_neg h₂, if_neg h₃, if_neg h₄, if_neg h₅,
    NmfVis.get_sample_order, if_pos rfl]

end Supporting

/-! ### The default sort kind below the 16-element cutoff -/

section DefaultSortLemmas

variable {κ : Type} [LinearOrder κ]

theorem npInsertIdx_perm (keys : List κ) (d : κ) (i : ℕ) :
    ∀ acc : List ℕ, (npInsertIdx keys d i acc).Perm (i :: acc)
  | [] => by simp [npInsertIdx]
  | b :: acc => by
    rw [npInsertIdx]
    split
    · exact ((npInsertIdx_perm keys d i acc).cons b).trans (List.Perm.swap i b acc)
    · exact List.Perm.refl _

theorem npInsertIdx_sorted (keys : List κ) (d : κ) (i : ℕ) :
    ∀ acc : List ℕ, List.Sorted (argRel d keys) acc → (∀ j ∈ acc, j < i) →
      List.Sorted (argRel d keys) (npInsertIdx keys d i acc)
  | [], _, _ => List.sorted_singleton i
  | b :: acc, hs, hlt => by
    rw [npInsertIdx]
    rw [List.sorted_cons] at hs
    split
    case isTrue hble =>
      rw [List.sorted_cons]
      refine ⟨?_, npInsertIdx_sorted keys d i acc hs.2
        (fun j hj => hlt j (List.mem_cons_of_mem _ hj))⟩
      intro x hx
      have hx' : x = i ∨ x ∈ acc := by
        simpa using (npInsertIdx_perm keys d i acc).mem_iff.mp hx
      rcases hx' with rfl | hx'
      · rcases lt_or_eq_of_le hble with h | h
        · exact Or.inl h
        · exact Or.inr ⟨h, le_of_lt (hlt b (List.mem_cons_self b acc))⟩
      · exact hs.1 x hx'
    case isFalse hnle =>
      have hib : keys.getD i d < keys.getD b d := lt_of_not_le hnle
      rw [List.sorted_cons]
      refine ⟨?_, List.sorted_cons.mpr hs⟩
      intro x hx
      rcases List.mem_cons.mp hx with rfl | hx'
      · exact Or.inl hib
      · have hbx := hs.1 x hx'
        have h₁ : keys.getD b d ≤ keys.getD x d := by
          rcases hbx with h | h
          · exact le_of_lt h
          · exact le_of_eq h.1
        exact Or.inl (lt_of_lt_of_le hib h₁)

theorem npInsertionSortIdx_concat (keys : List κ) (d : κ) (l : List ℕ) (i : ℕ) :
    npInsertionSortIdx keys d (l ++ [i]) =
      npInsertIdx keys d i (npInsertionSortIdx keys d l) := by
  rw [npInsertionSortIdx, npInsertionSortIdx, List.foldl_append, List.foldl_cons,
    List.foldl_nil]

theorem foldl_npInsert_perm (keys : List κ) (d : κ) :
    ∀ (l acc : List ℕ),
      (List.foldl (fun a i => npInsertIdx keys d i a) acc l).Perm (acc ++ l)
  | [], acc => by simp
  | i :: l, acc => by
    rw [List.foldl_cons]
    refine (foldl_npInsert_perm keys d l (npInsertIdx keys d i acc)).trans ?_
    refine ((npInsertIdx_perm keys d i acc).append_right l).trans ?_
    simpa using List.perm_middle.symm

theorem npInsertionSortIdx_perm (keys : List κ) (d : κ) (l : List ℕ) :
    (npInsertionSortIdx keys d l).Perm l := by
  simpa using foldl_npInsert_perm keys d l []

theorem npInsertionSortIdx_range_sorted (keys : List κ) (d : κ) :
    ∀ n : ℕ, List.Sorted (argRel d keys) (npInsertionSortIdx keys d (List.range n)) ∧
      ∀ j ∈ npInsertionSortIdx keys d (List.range n), j < n
  | 0 => by simp [npInsertionSortIdx]
  | n + 1 => by
    obtain ⟨hs, hmem⟩ := npInsertionSortIdx_range_sorted keys d n
    rw [List.range_succ, npInsertionSortIdx_concat]
    constructor
    · exact npInsertIdx_sorted keys d n _ hs hmem
    · intro j hj
      have hj' : j = n ∨ j ∈ npInsertionSortIdx keys d (List.range n) := by
        simpa using (npInsertIdx_perm keys d n _).mem_iff.mp hj
      rcases hj' with rfl | hj'
      · exact Nat.lt_succ_self j
      · exact Nat.lt_succ_of_lt (hmem j hj')

/-- numpy's single insertion pass over the indices `0 .. n-1` is exactly
the stable arg-sort: it is a permutation of the indices sorted under the
strict `(key, index)` comparator, and such a permutation is unique. -/
theorem npInsertionSortIdx_range_eq (d : κ) (keys : List κ) :
    npInsertionSortIdx keys d (List.range keys.length) = np_argsort d keys := by
  have h₁ : (npInsertionSortIdx keys d (List.range keys.length)).Perm (np_argsort d keys) :=
    (npInsertionSortIdx_perm keys d _).trans (np_argsort_perm d keys).symm
  have h₂ : List.Sorted (argRel d keys) (npInsertionSortIdx keys d (List.range keys.length)) :=
    (npInsertionSortIdx_range_sorted keys d keys.length).1
  exact List.eq_of_perm_of_sorted h₁ h₂ (np_argsort_sorted d keys)

/-- On at most 16 keys the default sort kind coincides with the stable
arg-sort: `aquicksort` never partitions (`(pr - pl) > SMALL_QUICKSORT`
fails at once) and performs the single stable insertion pass. -/
theorem np_argsort_default_eq_small (d : κ) (keys : List κ) (h : keys.length ≤ 16) :
    np_argsort_default d keys = np_argsort d keys := by
  rw [np_argsort_default, aquicksortRec.eq_def, if_pos (by simpa using h)]
  exact npInsertionSortIdx_range_eq d keys

end DefaultSortLemmas

/-! ### The claims -/

section Claims

variable {α : Type} [LinearOrderedAddCommGroup α]

/-- C2: for every rectangular matrix, in the output of `bar_sort_order`
every emitted row index is a genuine row whose `winner` is its first
arg-max column (ties broken by the lowest column index); along the output,
winners are non-decreasing (rows appear inside the group of their arg-max
column, groups in the matrix's current column order left to right), and two
rows of the same group appear with non-increasing values in that group's
column. -/
theorem claim2_bar_sort_order_grouping (m : NpMat α) (hwf : m.WF) (out : List ℕ)
    (hout : NmfVis.bar_sort_order m = some out) :
    (∀ i, i < out.length →
        IsFirstArgmax (m.row (out.getD i 0)) (winner m (out.getD i 0))) ∧
    (∀ p q, p < q → q < out.length →
        winner m (out.getD p 0) ≤ winner m (out.getD q 0) ∧
        (winner m (out.getD p 0) = winner m (out.getD q 0) →
          rowVal m (out.getD q 0) (winner m (out.getD q 0)) ≤
            rowVal m (out.getD p 0) (winner m (out.getD p 0)))) := by
  have hnc : ¬ m.ncols = 0 := by
    intro h
    rw [NmfVis.bar_sort_order, if_pos h] at hout
    exact Option.noConfusion hout
  have hout' : out = ((List.range m.ncols).map (barGroup m)).flatten := by
    rw [NmfVis.bar_sort_order, if_neg hnc] at hout
    exact (Option.some.inj hout).symm
  have hpair : List.Pairwise (fun i j =>
      winner m i < winner m j ∨
        (winner m i = winner m j ∧
          rowVal m j (winner m j) ≤ rowVal m i (winner m i))) out := by
    rw [hout']
    refine List.pairwise_flatten.mpr ⟨?_, ?_⟩
    · intro l hl
      obtain ⟨c, hc, rfl⟩ := List.mem_map.mp hl
      refine ((colRanking_pairwise m c).filter _).imp_of_mem ?_
      intro a b ha hb hab
      have hwa := (winner_of_mem_barGroup ha).1
      have hwb := (winner_of_mem_barGroup hb).1
      right
      refine ⟨hwa.trans hwb.symm, ?_⟩
      rw [hwa, hwb]
      rcases hab with h | h
      · exact le_of_lt h
      · exact le_of_eq h.1.symm
    · rw [List.pairwise_map]
      refine (List.pairwise_lt_range m.ncols).imp ?_
      intro c₁ c₂ h x hx y hy
      left
      rw [(winner_of_mem_barGroup hx).1, (winner_of_mem_barGroup hy).1]
      exact h
  have hpos := List.pairwise_iff_getElem.mp hpair
  constructor
  · intro i hi
    have hmem : out.getD i 0 ∈ out := by
      rw [List.getD_eq_getElem _ _ hi]
      exact List.getElem_mem hi
    have hrow : out.getD i 0 < m.rows.length := by
      have hmem₂ : out.getD i 0 ∈ ((List.range m.ncols).map (barGroup m)).flatten := by
        rw [← hout']
        exact hmem
      obtain ⟨l, hl, hil⟩ := List.mem_flatten.mp hmem₂
      obtain ⟨c, -, rfl⟩ := List.mem_map.mp hl
      exact (winner_of_mem_barGroup hil).2
    have hne : m.row (out.getD i 0) ≠ [] := by
      have hlen : (m.row (out.getD i 0)).length = m.ncols := by
        apply hwf
        rw [NpMat.row, List.getD_eq_getElem _ _ hrow]
        exact List.getElem_mem hrow
      intro hnil
      rw [hnil] at hlen
      exact hnc hlen.symm
    exact isFirstArgmax_np_argmax _ hne
  · intro p q hpq hq
    have hp : p < out.length := hpq.trans hq
    have hR := hpos p q hp hq hpq
    rw [List.getD_eq_getElem _ _ hp, List.getD_eq_getElem _ _ hq]
    constructor
    · rcases hR with h | h
      · exact le_of_lt h
      · exact le_of_eq h.1
    · intro heq
      rcases hR with h | h
      · rw [heq] at h
        exact absurd h (lt_irrefl _)
      · exact h.2

/-- Witness for C2 at the concrete matrix `[[1,3],[4,1]]` over `ℤ`, whose
`bar_sort_order` output is `[1,0]`: row `1` (emitted first) realises its
first arg-max, and the winners along the output are non-decreasing. -/
theorem claim2_witness :
    IsFirstArgmax ((⟨2, [[1,3],[4,1]]⟩ : NpMat ℤ).row 1)
      (winner (⟨2, [[1,3],[4,1]]⟩ : NpMat ℤ) 1) ∧
    winner (⟨2, [[1,3],[4,1]]⟩ : NpMat ℤ) 1 ≤ winner (⟨2, [[1,3],[4,1]]⟩ : NpMat ℤ) 0 :=
  ⟨(claim2_bar_sort_order_grouping (⟨2, [[1,3],[4,1]]⟩ : NpMat ℤ) (by decide)
      [1, 0] (by decide)).1 0 (by decide),
   ((claim2_bar_sort_order_grouping (⟨2, [[1,3],[4,1]]⟩ : NpMat ℤ) (by decide)
      [1, 0] (by decide)).2 0 1 (by decide) (by decide)).1⟩

/-- The stable idealization of the per-column ranking ranks all rows (a
permutation of the row indices), by non-increasing value in column `c`,
ties between equal values by ascending original row index.  Used by the
amended C5 below, where the program's default sort kind provably coincides
with this idealization. -/
theorem colRanking_stable_props (m : NpMat α) (c p q : ℕ) (hpq : p < q)
    (hq : q < (colRanking m c).length) :
    (colRanking m c).Perm (List.range m.rows.length) ∧
    rowVal m ((colRanking m c).getD q 0) c ≤ rowVal m ((colRanking m c).getD p 0) c ∧
    (rowVal m ((colRanking m c).getD p 0) c = rowVal m ((colRanking m c).getD q 0) c →
      (colRanking m c).getD p 0 < (colRanking m c).getD q 0) := by
  have hp : p < (colRanking m c).length := hpq.trans hq
  have hperm : (colRanking m c).Perm (List.range m.rows.length) := by
    have h := np_argsort_perm (0 : α) ((matCol m c).map Neg.neg)
    rw [colRanking]
    simpa [matCol] using h
  have hpairs := List.pairwise_iff_getElem.mp (colRanking_pairwise m c) p q hp hq hpq
  rw [List.getD_eq_getElem _ _ hp, List.getD_eq_getElem _ _ hq]
  refine ⟨hperm, ?_, ?_⟩
  · rcases hpairs with h | h
    · exact le_of_lt h
    · exact le_of_eq h.1.symm
  · intro heq
    have hne : (colRanking m c)[p] ≠ (colRanking m c)[q] := by
      have hnd : (colRanking m c).Nodup := hperm.nodup_iff.mpr (List.nodup_range _)
      intro hcontra
      exact absurd (hnd.getElem_inj_iff.mp hcontra) (Nat.ne_of_lt hpq)
    rcases hpairs with h | h
    · rw [heq] at h
      exact absurd h (lt_irrefl _)
    · exact lt_of_le_of_ne h.2 hne

/-- C5, counterexample: the claim «the per-column ranking breaks ties
between equal values by ascending original row index (a stable descending
sort), for every matrix and every column» fails on the program beyond
numpy's 16-element insertion-sort cutoff.  On the 17 × 1 all-zero matrix
the default-kind ranking is the introsort output
`[0, 14, 13, 12, 11, 10, 9, 15, 8, 6, 5, 4, 3, 2, 1, 7, 16]`: output
positions 1 and 2 hold the tied rows 14 and 13 with *descending* original
indices. -/
theorem claim5_counterexample :
    colRankingDefault (⟨1, List.replicate 17 [0]⟩ : NpMat ℤ) 0
      = [0, 14, 13, 12, 11, 10, 9, 15, 8, 6, 5, 4, 3, 2, 1, 7, 16] ∧
    rowVal (⟨1, List.replicate 17 [0]⟩ : NpMat ℤ)
        ((colRankingDefault (⟨1, List.replicate 17 [0]⟩ : NpMat ℤ) 0).getD 1 0) 0 =
      rowVal (⟨1, List.replicate 17 [0]⟩ : NpMat ℤ)
        ((colRankingDefault (⟨1, List.replicate 17 [0]⟩ : NpMat ℤ) 0).getD 2 0) 0 ∧
    ¬ ((colRankingDefault (⟨1, List.replicate 17 [0]⟩ : NpMat ℤ) 0).getD 1 0 <
        (colRankingDefault (⟨1, List.replicate 17 [0]⟩ : NpMat ℤ) 0).getD 2 0) := by
  decide

/-- C5, amended: inside `bar_sort_order`, the per-column ranking
`idx = np.argsort(-mat[:, c])` ranks all rows (it is a permutation of the
row indices), by non-increasing value in column `c`, with ties between
equal values broken by ascending original row index, for every matrix with
at most 16 rows and every column `c` — below numpy's cutoff the default
argsort is a single stable insertion pass.  Beyond 16 rows the default
quicksort kind may (and does) permute tied rows arbitrarily. -/
theorem claim5_col_ranking_stable (m : NpMat α) (c p q : ℕ)
    (hrows : m.rows.length ≤ 16) (hpq : p < q)
    (hq : q < (colRankingDefault m c).length) :
    (colRankingDefault m c).Perm (List.range m.rows.length) ∧
    rowVal m ((colRankingDefault m c).getD q 0) c ≤
      rowVal m ((colRankingDefault m c).getD p 0) c ∧
    (rowVal m ((colRankingDefault m c).getD p 0) c =
        rowVal m ((colRankingDefault m c).getD q 0) c →
      (colRankingDefault m c).getD p 0 < (colRankingDefault m c).getD q 0) := by
  have hbr : colRankingDefault m c = colRanking m c := by
    rw [colRankingDefault, colRanking]
    exact np_argsort_default_eq_small 0 _ (by simpa [matCol] using hrows)
  rw [hbr] at hq ⊢
  exact colRanking_stable_props m c p q hpq hq

/-- Witness for the amended C5 at the two-row matrix `[[1],[1]]` over `ℤ`,
whose single column is entirely tied: the default-kind ranking is a
permutation of `{0,1}` and the tie is broken by ascending original row
index. -/
theorem claim5_witness :
    (colRankingDefault (⟨1, [[1],[1]]⟩ : NpMat ℤ) 0).Perm (List.range 2) ∧
    rowVal (⟨1, [[1],[1]]⟩ : NpMat ℤ)
        ((colRankingDefault (⟨1, [[1],[1]]⟩ : NpMat ℤ) 0).getD 1 0) 0 ≤
      rowVal (⟨1, [[1],[1]]⟩ : NpMat ℤ)
        ((colRankingDefault (⟨1, [[1],[1]]⟩ : NpMat ℤ) 0).getD 0 0) 0 ∧
    (rowVal (⟨1, [[1],[1]]⟩ : NpMat ℤ)
        ((colRankingDefault (⟨1, [[1],[1]]⟩ : NpMat ℤ) 0).getD 0 0) 0 =
        rowVal (⟨1, [[1],[1]]⟩ : NpMat ℤ)
          ((colRankingDefault (⟨1, [[1],[1]]⟩ : NpMat ℤ) 0).getD 1 0) 0 →
      (colRankingDefault (⟨1, [[1],[1]]⟩ : NpMat ℤ) 0).getD 0 0 <
        (colRankingDefault (⟨1, [[1],[1]]⟩ : NpMat ℤ) 0).getD 1 0) :=
  claim5_col_ranking_stable (⟨1, [[1],[1]]⟩ : NpMat ℤ) 0 0 1 (by decide) (by decide)
    (by decide)

/-- The stable idealization of the Component Ranker is the identity on any
matrix whose column sums are non-increasing left to right.  Used by the
amended C8 below, where the program's default sort kind provably coincides
with this idealization. -/
theorem comp_order_eq_range_of_nonincreasing (m : NpMat α)
    (hsorted : ∀ j, j < m.ncols → ∀ i, i ≤ j →
      (colSums m).getD j 0 ≤ (colSums m).getD i 0) :
    comp_order m = List.range m.ncols := by
  have hlen : ((colSums m).map (Neg.neg : α → α)).length = m.ncols := by
    simp [colSums]
  have hsort₁ : List.Sorted (argRel 0 ((colSums m).map Neg.neg))
      (np_argsort 0 ((colSums m).map Neg.neg)) :=
    np_argsort_sorted _ _
  have hsort₂ : List.Sorted (argRel 0 ((colSums m).map Neg.neg))
      (List.range m.ncols) := by
    rw [List.Sorted, List.pairwise_iff_getElem]
    intro i j hi hj hij
    rw [List.getElem_range, List.getElem_range]
    have hj' : j < m.ncols := by simpa using hj
    have hle : (colSums m).getD j 0 ≤ (colSums m).getD i 0 :=
      hsorted j hj' i (le_of_lt hij)
    unfold argRel
    rw [getD_map_neg, getD_map_neg]
    rcases eq_or_lt_of_le hle with h | h
    · exact Or.inr ⟨by rw [h], le_of_lt hij⟩
    · exact Or.inl (neg_lt_neg h)
  have hperm : (np_argsort (0 : α) ((colSums m).map Neg.neg)).Perm
      (List.range m.ncols) := by
    have h := np_argsort_perm (0 : α) ((colSums m).map Neg.neg)
    rwa [hlen] at h
  show np_argsort (0 : α) ((colSums m).map Neg.neg) = List.range m.ncols
  exact List.eq_of_perm_of_sorted hperm hsort₁ hsort₂

/-- C8, counterexample: the claim «for every matrix whose columns are
already sorted in non-increasing order of column sums, the Component
Ranker returns the identity permutation» fails on the program once the
column count exceeds numpy's 16-element cutoff.  The 1 × 17 all-ones
matrix has constant (hence non-increasing) column sums, yet the
default-kind `np.argsort(-H.sum(axis=0))` is the scrambled introsort
output, not the identity. -/
theorem claim8_counterexample :
    (∀ j, j < (⟨17, [List.replicate 17 (1:ℤ)]⟩ : NpMat ℤ).ncols → ∀ i, i ≤ j →
        (colSums (⟨17, [List.replicate 17 (1:ℤ)]⟩ : NpMat ℤ)).getD j 0 ≤
          (colSums (⟨17, [List.replicate 17 (1:ℤ)]⟩ : NpMat ℤ)).getD i 0) ∧
    comp_orderDefault (⟨17, [List.replicate 17 (1:ℤ)]⟩ : NpMat ℤ)
      = [0, 14, 13, 12, 11, 10, 9, 15, 8, 6, 5, 4, 3, 2, 1, 7, 16] ∧
    comp_orderDefault (⟨17, [List.replicate 17 (1:ℤ)]⟩ : NpMat ℤ) ≠ List.range 17 := by
  decide

/-- C8, amended: on every matrix with at most 16 columns whose column sums
are already non-increasing left to right, the Component Ranker
`np.argsort(-H.sum(axis=0))` (default sort kind) is the identity
permutation of the columns.  Beyond 16 columns, tied sums may be permuted
arbitrarily by the default quicksort. -/
theorem claim8_component_ranker_idempotent (m : NpMat α) (hcols : m.ncols ≤ 16)
    (hsorted : ∀ j, j < m.ncols → ∀ i, i ≤ j →
      (colSums m).getD j 0 ≤ (colSums m).getD i 0) :
    comp_orderDefault m = List.range m.ncols := by
  have hbr : comp_orderDefault m = comp_order m := by
    rw [comp_orderDefault, comp_order]
    exact np_argsort_default_eq_small 0 _ (by simpa [colSums] using hcols)
  rw [hbr]
  exact comp_order_eq_range_of_nonincreasing m hsorted

/-- Witness for the amended C8 at the one-row matrix `[[2,1]]` over `ℤ`:
its column sums `[2,1]` are non-increasing, and the default-kind Component
Ranker returns the identity `[0,1]`. -/
theorem claim8_witness : comp_orderDefault (⟨2, [[2,1]]⟩ : NpMat ℤ) = List.range 2 :=
  claim8_component_ranker_idempotent (⟨2, [[2,1]]⟩ : NpMat ℤ) (by decide) (by decide)

end Claims

section ClaimsContinued

variable {α : Type} [LinearOrderedAddCommGroup α]

/-- C4, counterexample: the claim «for every input matrix with zero rows or
zero columns, `bar_sort_order` returns the empty permutation and does not
raise» fails at the 1 × 0 matrix: `np.argmax(mat, axis=1)` raises
`ValueError` whenever the reduced axis has length zero, so
`bar_sort_order` errors (`none`) instead of returning `some []`. -/
theorem claim4_counterexample :
    NmfVis.bar_sort_order (⟨0, [[]]⟩ : NpMat ℤ) = none := by decide

/-- C4, amended: a matrix with zero rows (and at least one column) yields
the empty permutation; a matrix with zero columns makes
`np.argmax(mat, axis=1)` raise `ValueError`, which `bar_sort_order`
propagates. -/
theorem claim4_empty_input (m : NpMat α) :
    (m.rows = [] → 0 < m.ncols → NmfVis.bar_sort_order m = some []) ∧
    (m.ncols = 0 → NmfVis.bar_sort_order m = none) := by
  constructor
  · intro hrows hpos
    rw [NmfVis.bar_sort_order, if_neg (Nat.pos_iff_ne_zero.mp hpos)]
    congr 1
    rw [List.flatten_eq_nil_iff]
    intro l hl
    obtain ⟨c, -, rfl⟩ := List.mem_map.mp hl
    simp [barGroup, colRanking, matCol, np_argsort, hrows]
  · intro h
    rw [NmfVis.bar_sort_order, if_pos h]

/-- Witness for the amended C4: the 0 × 3 matrix gives `some []` and the
1 × 0 matrix gives the error. -/
theorem claim4_witness :
    NmfVis.bar_sort_order (⟨3, []⟩ : NpMat ℤ) = some [] ∧
    NmfVis.bar_sort_order (⟨0, [[]]⟩ : NpMat ℤ) = none :=
  ⟨(claim4_empty_input (⟨3, []⟩ : NpMat ℤ)).1 rfl (by decide),
   (claim4_empty_input (⟨0, [[]]⟩ : NpMat ℤ)).2 rfl⟩

/-- C1: the two cited copies of `get_cancer_type_sort` do not both return
permutations.  On the matrix `[[3,1],[1,4]]` with labels `["A","B"]` the
canonical nmf_vis copy returns the permutation `[0,1]`, while the helpers
copy raises `NameError` (it reads the undefined name `sample_ids`), so it
returns no permutation at all. -/
theorem claim1_cancer_type_copies_divergence :
    Helpers.get_cancer_type_sort (⟨2, [[3,1],[1,4]]⟩ : NpMat ℤ) [['A'], ['B']] = none ∧
    NmfVis.get_cancer_type_sort (⟨2, [[3,1],[1,4]]⟩ : NpMat ℤ) [['A'], ['B']]
      = some [0, 1] := by decide

/-- C3: with the grouping file missing, the helpers copy of
`get_organ_system_sort` falls back to `bar_sort_order(H)` on the
un-reordered matrix, which differs from that module's own `component`
strategy: on `H = [[0,5],[1,0]]` the fallback gives `[1,0]` while the
`component` strategy gives `[0,1]`. -/
theorem claim3_helpers_organ_fallback_divergence :
    Helpers.get_organ_system_sort_fallback (⟨2, [[0,5],[1,0]]⟩ : NpMat ℤ) = some [1, 0] ∧
    Helpers.get_sample_order "component" (⟨2, [[0,5],[1,0]]⟩ : NpMat ℤ) [] []
      = some [0, 1] := by decide

/-- C6: the helpers dispatcher's default for an unrecognised strategy name
(`"dominant"`) is `bar_sort_order(H)` without the component reorder, which
differs from its `component` branch: on `H = [[0,5],[1,0]]` the default
gives `[1,0]` while `component` gives `[0,1]`. -/
theorem claim6_helpers_unknown_method_divergence :
    Helpers.get_sample_order "dominant" (⟨2, [[0,5],[1,0]]⟩ : NpMat ℤ) [] []
      = some [1, 0] ∧
    Helpers.get_sample_order "component" (⟨2, [[0,5],[1,0]]⟩ : NpMat ℤ) [] []
      = some [0, 1] := by decide

/-- C7: on `H = [[3,1],[1,4],[4,0],[0,5]]` the `component` strategy —
Component Ranker puts column 1 before column 0 (sums 10 > 8), then
`bar_sort_order` on the reordered matrix — returns exactly `[3,1,2,0]`. -/
theorem claim7_component_concrete_scenario :
    NmfVis.get_sample_order "component" (⟨2, [[3,1],[1,4],[4,0],[0,5]]⟩ : NpMat ℤ)
      [] [] none = some [3, 1, 2, 0] := by decide

/-- C9: `get_embryonic_layer_sort` does not follow the organ-system
partition scheme: on `H = [[0,5],[1,0]]` with cancer types `AAAA`/`BBBB`
and an embryonic grouping table mapping them to `meso`/`ecto`, the code
ignores the table and returns the plain component ordering `[0,1]`,
whereas the spec's partition-then-rank scheme (processing `ecto` before
`meso`) returns `[1,0]`. -/
theorem claim9_embryonic_layer_placeholder :
    NmfVis.get_embryonic_layer_sort (⟨2, [[0,5],[1,0]]⟩ : NpMat ℤ)
        [['A','A','A','A'], ['B','B','B','B']]
        (some [(['m','e','s','o'], [['A','A','A','A']]),
               (['e','c','t','o'], [['B','B','B','B']])]) = some [0, 1] ∧
    NmfVis.get_embryonic_layer_sort_spec (⟨2, [[0,5],[1,0]]⟩ : NpMat ℤ)
        [['A','A','A','A'], ['B','B','B','B']]
        (some [(['m','e','s','o'], [['A','A','A','A']]),
               (['e','c','t','o'], [['B','B','B','B']])]) = some [1, 0] := by decide

/-- C10: the two module copies of `bar_sort_order` —
helpers/sort_utils.py lines 4–11 and nmf_vis/sort_utils.py lines 5–14 —
are the same algorithm line for line and compute the same function on
every input matrix. -/
theorem claim10_bar_sort_order_copies_equal (m : NpMat α) :
    Helpers.bar_sort_order m = NmfVis.bar_sort_order m := rfl

end ClaimsContinued

/-! ### The permutation guarantee of the Primary Sort Engine -/

section PermutationGuarantee

variable {α : Type} [LinearOrderedAddCommGroup α]

theorem count_range_eq (a n : ℕ) :
    List.count a (List.range n) = if a < n then 1 else 0 := by
  by_cases h : a < n
  · rw [if_pos h]
    exact List.count_eq_one_of_mem (List.nodup_range n) (List.mem_range.mpr h)
  · rw [if_neg h]
    exact List.count_eq_zero.mpr (fun hmem => h (List.mem_range.mp hmem))

theorem sum_map_ite_single (n w x : ℕ) :
    ((List.range n).map (fun c => if w = c then x else 0)).sum = if w < n then x else 0 := by
  induction n with
  | zero => simp
  | succ n ih =>
    rw [List.range_succ, List.map_append, List.sum_append, ih]
    by_cases h : w < n
    · have hne : w ≠ n := Nat.ne_of_lt h
      simp [h, hne, Nat.lt_succ_of_lt h]
    · by_cases h₂ : w = n
      · subst h₂
        simp [h, Nat.lt_succ_self]
      · have h₃ : ¬ w < n + 1 := by omega
        simp [h, h₂, h₃]

/-- Spec property 1 for the Primary Sort Engine: on every rectangular
matrix (necessarily with at least one column, else `bar_sort_order`
errors), the output is exactly a permutation of the original row indices
`0 .. n_rows - 1`. -/
theorem bar_sort_order_perm (m : NpMat α) (hwf : m.WF) (out : List ℕ)
    (hout : NmfVis.bar_sort_order m = some out) :
    out.Perm (List.range m.rows.length) := by
  have hnc : ¬ m.ncols = 0 := by
    intro h
    rw [NmfVis.bar_sort_order, if_pos h] at hout
    exact Option.noConfusion hout
  have hout' : out = ((List.range m.ncols).map (barGroup m)).flatten := by
    rw [NmfVis.bar_sort_order, if_neg hnc] at hout
    exact (Option.some.inj hout).symm
  rw [List.perm_iff_count]
  intro a
  rw [hout', List.count_flatten, List.map_map]
  have hterm : ∀ c ∈ List.range m.ncols, (List.count a ∘ barGroup m) c =
      if winner m a = c then List.count a (List.range m.rows.length) else 0 := by
    intro c _
    simp only [Function.comp_apply]
    by_cases hw : winner m a = c
    · rw [if_pos hw, barGroup, List.count_filter (by rw [winnersList_getD, hw]; exact beq_self_eq_true c)]
      have hkl : ((matCol m c).map (Neg.neg : α → α)).length = m.rows.length := by
        simp [matCol]
      rw [colRanking]
      rw [(np_argsort_perm (0 : α) ((matCol m c).map Neg.neg)).count_eq a, hkl]
    · rw [if_neg hw]
      rw [List.count_eq_zero]
      intro hmem
      exact hw (winner_of_mem_barGroup hmem).1
  rw [List.map_congr_left hterm, sum_map_ite_single]
  by_cases ha : a < m.rows.length
  · have hrowlen : (m.row a).length = m.ncols := by
      apply hwf
      rw [NpMat.row, List.getD_eq_getElem _ _ ha]
      exact List.getElem_mem ha
    have hne : m.row a ≠ [] := by
      intro hnil
      rw [hnil] at hrowlen
      exact hnc hrowlen.symm
    have hwlt : winner m a < m.ncols := by
      have h := np_argmax_lt_length (m.row a) hne
      rwa [hrowlen] at h
    rw [if_pos hwlt]
  · rw [count_range_eq, if_neg ha]
    simp

/-- Every sorted output of the `component` strategy (nmf_vis module) is a
permutation of the original row indices: the column reorder keeps all rows
and keeps them rectangular. -/
theorem reorderCols_WF (m : NpMat α) (perm : List ℕ) : (reorderCols m perm).WF := by
  intro r hr
  rw [reorderCols] at hr
  obtain ⟨r₀, -, rfl⟩ := List.mem_map.mp hr
  simp [reorderCols]

theorem nmfvis_component_strategy_perm (H : NpMat α) (ids cts : List PyStr)
    (tbl : Option GroupTable) (out : List ℕ)
    (hout : NmfVis.get_sample_order "component" H ids cts tbl = some out) :
    out.Perm (List.range H.rows.length) := by
  have hb : NmfVis.bar_sort_order (compReordered H) = some out := hout
  have h := bar_sort_order_perm (compReordered H) (reorderCols_WF H _) out hb
  have hlen : (compReordered H).rows.length = H.rows.length := by
    simp [compReordered, reorderCols]
  rwa [hlen] at h

/-- The `alphabetical` strategy returns a permutation of the sample
indices. -/
theorem get_alphabetical_sort_perm (ids : List PyStr) :
    (NmfVis.get_alphabetical_sort ids).Perm (List.range ids.length) :=
  np_argsort_perm _ _

end PermutationGuarantee

/-! ### The permutation guarantee of the composite strategies -/

section CompositePermutation

variable {α : Type} [LinearOrderedAddCommGroup α]

theorem mapM_option_forall₂ {β γ : Type} (f : β → Option γ) :
    ∀ (l : List β) (res : List γ), l.mapM f = some res →
      List.Forall₂ (fun b c => f b = some c) l res := by
  intro l
  induction l with
  | nil =>
    intro res h
    rw [List.mapM_nil] at h
    cases Option.some.inj h
    exact List.Forall₂.nil
  | cons b bs ih =>
    intro res h
    rw [List.mapM_cons] at h
    cases hfb : f b with
    | none =>
      rw [hfb] at h
      simp at h
    | some c =>
      rw [hfb] at h
      cases hrest : bs.mapM f with
      | none =>
        rw [hrest] at h
        simp at h
      | some cs =>
        rw [hrest] at h
        simp only [Option.bind_some, Option.some_bind, pure] at h
        cases Option.some.inj h
        exact List.Forall₂.cons hfb (ih cs hrest)

theorem map_getD_range {β : Type} (l : List β) (d : β) :
    (List.range l.length).map (fun k => l.getD k d) = l := by
  apply List.ext_getElem (by simp)
  intro i h₁ h₂
  rw [List.getElem_map, List.getElem_range, List.getD_eq_getElem _ _ h₂]

theorem rowSubset_WF (m : NpMat α) (hm : m.WF) (idxs : List ℕ)
    (hidx : ∀ i ∈ idxs, i < m.rows.length) : (rowSubset m idxs).WF := by
  intro r hr
  rw [rowSubset] at hr
  obtain ⟨i, hi, rfl⟩ := List.mem_map.mp hr
  show (m.rows.getD i []).length = m.ncols
  rw [List.getD_eq_getElem _ _ (hidx i hi)]
  exact hm _ (List.getElem_mem _)

theorem compReordered_rows_length (H : NpMat α) :
    (compReordered H).rows.length = H.rows.length := by
  simp [compReordered, reorderCols]

theorem subIndices_mem {labels : List PyStr} {lab : PyStr} {i : ℕ}
    (h : i ∈ subIndices labels lab) : i < labels.length ∧ labels.getD i [] = lab := by
  rw [subIndices, List.mem_filter, List.mem_range] at h
  exact ⟨h.1, beq_iff_eq.mp h.2⟩

theorem sum_map_ite_mem {β : Type} [DecidableEq β] (w : β) (x : ℕ) :
    ∀ (l : List β), l.Nodup →
      (l.map (fun b => if w = b then x else 0)).sum = if w ∈ l then x else 0
  | [], _ => by simp
  | b :: bs, hnd => by
    rw [List.map_cons, List.sum_cons, sum_map_ite_mem w x bs hnd.of_cons]
    by_cases hwb : w = b
    · subst hwb
      have hnmem : w ∉ bs := (List.nodup_cons.mp hnd).1
      simp [hnmem]
    · simp [hwb]

theorem sortedUnique_nodup (labels : List PyStr) : (sortedUnique labels).Nodup :=
  (List.perm_insertionSort _ _).nodup_iff.mpr (List.nodup_dedup labels)

theorem mem_sortedUnique {labels : List PyStr} {lab : PyStr} :
    lab ∈ sortedUnique labels ↔ lab ∈ labels := by
  rw [sortedUnique, List.mem_insertionSort, List.mem_dedup]

/-- Spec property 4 (partition concatenation): the per-label row subsets,
concatenated over the distinct labels, are exactly a permutation of all row
positions — no sample dropped or duplicated across partitions. -/
theorem subIndices_partition_perm (labels : List PyStr) :
    ((sortedUnique labels).map (subIndices labels)).flatten.Perm
      (List.range labels.length) := by
  rw [List.perm_iff_count]
  intro a
  rw [List.count_flatten, List.map_map]
  have hterm : ∀ lab ∈ sortedUnique labels,
      (List.count a ∘ subIndices labels) lab =
        if labels.getD a [] = lab then List.count a (List.range labels.length) else 0 := by
    intro lab _
    simp only [Function.comp_apply]
    by_cases hl : labels.getD a [] = lab
    · rw [if_pos hl, subIndices,
        List.count_filter (by rw [hl]; exact beq_self_eq_true lab)]
    · rw [if_neg hl, List.count_eq_zero]
      intro hmem
      exact hl (subIndices_mem hmem).2
  rw [List.map_congr_left hterm,
    sum_map_ite_mem _ _ (sortedUnique labels) (sortedUnique_nodup labels)]
  by_cases ha : a < labels.length
  · have hmem : labels.getD a [] ∈ sortedUnique labels := by
      rw [mem_sortedUnique, List.getD_eq_getElem _ _ ha]
      exact List.getElem_mem ha
    rw [if_pos hmem]
  · rw [count_range_eq, if_neg ha]
    simp

/-- Spec property 1 for the partition-then-rank body shared by
`cancer_type` and the grouping branch of `organ_system`: whenever it
returns at all, the result is a permutation of the original row indices. -/
theorem groupedBarSort_perm (H : NpMat α) (labels : List PyStr) (hwf : H.WF)
    (hlen : labels.length = H.rows.length) (out : List ℕ)
    (hout : NmfVis.groupedBarSort H labels = some out) :
    out.Perm (List.range H.rows.length) := by
  rw [NmfVis.groupedBarSort] at hout
  obtain ⟨res, hres, hflat⟩ := Option.map_eq_some'.mp hout
  subst hflat
  have hf2 := mapM_option_forall₂ _ _ _ hres
  have hpieces : List.Forall₂ (fun piece lab => piece.Perm (subIndices labels lab))
      res (sortedUnique labels) := by
    refine hf2.flip.imp ?_
    intro piece lab hfl
    simp only [flip] at hfl
    by_cases hsub : subIndices labels lab = []
    · rw [if_pos hsub] at hfl
      cases Option.some.inj hfl
      rw [hsub]
    · rw [if_neg hsub] at hfl
      obtain ⟨so, hso, hpe⟩ := Option.map_eq_some'.mp hfl
      subst hpe
      have hbound : ∀ i ∈ subIndices labels lab, i < (compReordered H).rows.length := by
        intro i hi
        rw [compReordered_rows_length, ← hlen]
        exact (subIndices_mem hi).1
      have hwfs : (rowSubset (compReordered H) (subIndices labels lab)).WF :=
        rowSubset_WF _ (reorderCols_WF H _) _ hbound
      have hp := bar_sort_order_perm _ hwfs so hso
      have hrl : (rowSubset (compReordered H) (subIndices labels lab)).rows.length
          = (subIndices labels lab).length := by
        simp [rowSubset]
      rw [hrl] at hp
      have hmapped := hp.map (fun k => (subIndices labels lab).getD k 0)
      rwa [map_getD_range] at hmapped
  have hflatp : res.flatten.Perm
      ((sortedUnique labels).map (subIndices labels)).flatten := by
    apply List.Perm.flatten_congr
    rw [List.forall₂_map_right_iff]
    exact hpieces
  have hpart := subIndices_partition_perm labels
  rw [hlen] at hpart
  exact hflatp.trans hpart

theorem nmfvis_cancer_type_sort_perm (H : NpMat α) (cts : List PyStr) (hwf : H.WF)
    (hlen : cts.length = H.rows.length) (out : List ℕ)
    (hout : NmfVis.get_cancer_type_sort H cts = some out) :
    out.Perm (List.range H.rows.length) :=
  groupedBarSort_perm H cts hwf hlen out hout

theorem nmfvis_organ_system_sort_perm (H : NpMat α) (ids : List PyStr)
    (tbl : Option GroupTable) (hwf : H.WF) (hlen : ids.length = H.rows.length)
    (out : List ℕ) (hout : NmfVis.get_organ_system_sort H ids tbl = some out) :
    out.Perm (List.range H.rows.length) := by
  have hcomp : ∀ o : List ℕ, NmfVis.bar_sort_order (compReordered H) = some o →
      o.Perm (List.range H.rows.length) := by
    intro o ho
    have h := bar_sort_order_perm (compReordered H) (reorderCols_WF H _) o ho
    rwa [compReordered_rows_length] at h
  cases tbl with
  | none => exact hcomp out hout
  | some groups =>
    have hout' : (match NmfVis.groupedBarSort H ((ids.map (List.take 4)).map
        (fun code => (lookupCode groups code).getD unknownLabel)) with
      | none => NmfVis.bar_sort_order (compReordered H)
      | some r => some r) = some out := hout
    cases hg : NmfVis.groupedBarSort H ((ids.map (List.take 4)).map
        (fun code => (lookupCode groups code).getD unknownLabel)) with
    | none =>
      rw [hg] at hout'
      exact hcomp out hout'
    | some r =>
      rw [hg] at hout'
      cases Option.some.inj hout'
      refine groupedBarSort_perm H _ hwf ?_ _ hg
      simp [hlen]

/-- Spec property 1 for the whole canonical dispatcher: whatever strategy
name is requested (recognised or not) and whether or not the grouping table
is available, whenever `get_sample_order` returns an order it is a
permutation of the original row indices. -/
theorem nmfvis_get_sample_order_perm (sort_method : String) (H : NpMat α)
    (ids cts : List PyStr) (tbl : Option GroupTable) (hwf : H.WF)
    (hids : ids.length = H.rows.length) (hcts : cts.length = H.rows.length)
    (out : List ℕ)
    (hout : NmfVis.get_sample_order sort_method H ids cts tbl = some out) :
    out.Perm (List.range H.rows.length) := by
  have hcomp : ∀ o : List ℕ, NmfVis.bar_sort_order (compReordered H) = some o →
      o.Perm (List.range H.rows.length) := by
    intro o ho
    have h := bar_sort_order_perm (compReordered H) (reorderCols_WF H _) o ho
    rwa [compReordered_rows_length] at h
  rw [NmfVis.get_sample_order] at hout
  by_cases h₁ : sort_method = "component"
  · rw [if_pos h₁] at hout
    exact hcomp out hout
  rw [if_neg h₁] at hout
  by_cases h₂ : sort_method = "alphabetical"
  · rw [if_pos h₂] at hout
    cases Option.some.inj hout
    have h := get_alphabetical_sort_perm ids
    rwa [hids] at h
  rw [if_neg h₂] at hout
  by_cases h₃ : sort_method = "cancer_type"
  · rw [if_pos h₃] at hout
    exact nmfvis_cancer_type_sort_perm H cts hwf hcts out hout
  rw [if_neg h₃] at hout
  by_cases h₄ : sort_method = "organ_system"
  · rw [if_pos h₄] at hout
    exact nmfvis_organ_system_sort_perm H ids tbl hwf hids out hout
  rw [if_neg h₄] at hout
  by_cases h₅ : sort_method = "embryonic_layer"
  · rw [if_pos h₅] at hout
    exact hcomp out hout
  rw [if_neg h₅] at hout
  exact hcomp out hout

end CompositePermutation
